import Mathlib

/-!
Verification of the citation-to-PDF matching and result-reconciliation
pipeline of `Analysis.py`.

Strings are modelled as `List Char` (named `Str` below).  ASCII semantics
are used for the character classes of the Python regular expressions and
string methods (`\s`, `\d`, `\w`, `str.lower`, `str.strip`): every input
appearing in a theorem, witness or counterexample below is ASCII, and on
ASCII strings the Lean definitions agree with the Python ones.

The third-party similarity scorers `fuzz.token_set_ratio` and
`fuzz.partial_ratio` are external library calls; `find_best_local_match`
is therefore parameterised over the two scoring functions (`tsr`, `psr`),
with their documented integer range [0,100] taken as a hypothesis where a
claim needs it.  Likewise `json.loads` and the shape of decoded batch
output lines are external to the repository, so the result-parsing loop of
`save_results` is modelled over an abstract decoding of each line.
-/

/-- Strings of the Python program, modelled as lists of characters. -/
abbrev Str := List Char

/- ### Character classes (ASCII semantics of the Python regexes) -/

/-- Python `\s` whitespace class, ASCII part: space, tab, newline,
carriage return, vertical tab, form feed. -/
def isPySpace (c : Char) : Bool :=
  c.toNat = 32 || c.toNat = 9 || c.toNat = 10 || c.toNat = 13 ||
    c.toNat = 11 || c.toNat = 12

/-- Character class `[a-z]`. -/
def isLowerAlpha (c : Char) : Bool :=
  97 ≤ c.toNat && c.toNat ≤ 122

/-- Character class `[0-9]` (Python `\d`, ASCII part). -/
def isDigitA (c : Char) : Bool :=
  48 ≤ c.toNat && c.toNat ≤ 57

/-- Character class `[a-z0-9]`. -/
def isLowerAlnum (c : Char) : Bool :=
  isLowerAlpha c || isDigitA c

/-- Python `\w` word-character class (ASCII part): letters, digits and
underscore.  Used by the `\b` word boundaries of `extract_year`'s regex. -/
def isWordChar (c : Char) : Bool :=
  isLowerAlpha c || isDigitA c || (65 ≤ c.toNat && c.toNat ≤ 90) || c.toNat = 95

/-- Python `str.lower` on one character (ASCII): maps `A`-`Z` to `a`-`z`. -/
def pyLower (c : Char) : Char :=
  if 65 ≤ c.toNat ∧ c.toNat ≤ 90 then Char.ofNat (c.toNat + 32) else c

/- ### Generic string operations used by the source -/

/-- Python `str.replace(pat, rep)`: replace every non-overlapping
occurrence of `p :: ps` (a nonempty pattern) from left to right,
continuing after the replacement text. -/
def replaceAll (p : Char) (ps rep : Str) : Str → Str
  | [] => []
  | c :: rest =>
    if (p :: ps).isPrefixOf (c :: rest) then
      rep ++ replaceAll p ps rep (rest.drop ps.length)
    else
      c :: replaceAll p ps rep rest
termination_by s => s.length
decreasing_by
  · simp only [List.length_cons, List.length_drop]
    omega
  · simp only [List.length_cons]
    omega

/-- Python `str.split()` with no separator: split on runs of whitespace,
returning the (nonempty) tokens. -/
def splitWs (l : Str) : List Str :=
  match l with
  | [] => []
  | c :: rest =>
    if isPySpace c then
      splitWs rest
    else
      (c :: rest.takeWhile (fun x => !isPySpace x)) ::
        splitWs (rest.dropWhile (fun x => !isPySpace x))
termination_by l.length
decreasing_by
  · simp only [List.length_cons]
    omega
  · simp only [List.length_cons]
    have h : ∀ (l₀ : Str), (l₀.dropWhile (fun x => !isPySpace x)).length ≤ l₀.length := by
      intro l₀
      induction l₀ with
      | nil => simp [List.dropWhile]
      | cons a as ih =>
        by_cases ha : (!isPySpace a) = true
        · simp [List.dropWhile_cons, ha]
          omega
        · simp [List.dropWhile_cons, ha]
    have := h rest
    omega

/-- Python `" ".join(tokens)`: interleave a single space between tokens. -/
def joinSpace : List Str → Str
  | [] => []
  | [t] => t
  | t :: ts => t ++ ' ' :: joinSpace ts

/- ### `extract_year` (Analysis.py lines 104-107)

`re.search(r'\b(19|20)\d{2}\b', text)` scans positions left to right and
returns the leftmost match.  `yearHereB prev l` decides whether the regex
matches at the head of `l`, where `prev` is the character immediately
before that position (`none` at the start of the string); since the first
and last matched characters are digits, the two `\b` assertions reduce to
"previous/next character absent or not a word character". -/

/-- Regex `\b(19|20)\d{2}\b` matched at the current position. -/
def yearHereB (prev : Option Char) (l : Str) : Bool :=
  match l with
  | c1 :: c2 :: c3 :: c4 :: rest =>
    ((c1 == '1' && c2 == '9') || (c1 == '2' && c2 == '0')) &&
      isDigitA c3 && isDigitA c4 &&
      (match prev with
       | none => true
       | some p => !isWordChar p) &&
      (match rest with
       | [] => true
       | r :: _ => !isWordChar r)
  | _ => false

/-- Scan of `re.search`, carrying the previous character for the leading
word boundary. -/
def searchYearAux (prev : Option Char) (l : Str) : Option Str :=
  match l with
  | [] => none
  | c :: rest =>
    if yearHereB prev (c :: rest) then some ((c :: rest).take 4)
    else searchYearAux (some c) rest

/-- Source `extract_year`: first `\b(19|20)\d{2}\b` match, as a string. -/
def extract_year (s : Str) : Option Str :=
  searchYearAux none s

/- ### `normalize_text` (Analysis.py lines 109-114) -/

/-- Regex substitution `re.sub(r'[^a-z0-9\s]', ' ', text)` on one
character. -/
def subChar (c : Char) : Char :=
  if isLowerAlnum c || isPySpace c then c else ' '

/-- Source `normalize_text`: lower-case, `replace('.pdf', '')`, replace
every character outside `[a-z0-9\s]` with a space, then
`" ".join(text.split())`. -/
def normalize_text (s : Str) : Str :=
  joinSpace (splitWs (List.map subChar
    (replaceAll '.' ['p', 'd', 'f'] [] (List.map pyLower s))))

/- ### `find_best_local_match` (Analysis.py lines 116-153)

Scores are rational numbers (the Python float arithmetic here is exact on
the values the claims are about); `pyTrunc` is Python `int()` on a float,
truncation toward zero. -/

/-- Python `int()` on a rational value: truncation toward zero. -/
def pyTrunc (q : ℚ) : ℤ :=
  if 0 ≤ q then ⌊q⌋ else ⌈q⌉

/-- Per-candidate unbonused score: `max(base_score, partial_score)` when
the normalized filename is longer than 15 characters, else the token-set
score alone. -/
def finalScore (tsr psr : Str → Str → ℤ) (cleanSheet cleanFile : Str) : ℤ :=
  if 15 < cleanFile.length then max (tsr cleanSheet cleanFile) (psr cleanSheet cleanFile)
  else tsr cleanSheet cleanFile

/-- Score of one candidate as tracked in `best_score`: the unbonused
score plus the tie-break bonus `len(clean_file) / 1000.0`. -/
def bonusedScore (tsr psr : Str → Str → ℤ) (cleanSheet f : Str) : ℚ :=
  (finalScore tsr psr cleanSheet (normalize_text f) : ℚ) +
    ((normalize_text f).length : ℚ) / 1000

/-- The candidate loop of `find_best_local_match`, tracking
`(best_file, best_score)`. -/
def find_best_aux (tsr psr : Str → Str → ℤ) (cleanSheet : Str)
    (sheetYear : Option Str) (files : List Str)
    (best : Option Str × ℚ) : Option Str × ℚ :=
  match files with
  | [] => best
  | f :: rest =>
    let fileYear := extract_year f
    if sheetYear.isSome ∧ fileYear.isSome ∧ sheetYear ≠ fileYear then
      find_best_aux tsr psr cleanSheet sheetYear rest best
    else
      if best.2 < bonusedScore tsr psr cleanSheet f then
        find_best_aux tsr psr cleanSheet sheetYear rest
          (some f, bonusedScore tsr psr cleanSheet f)
      else
        find_best_aux tsr psr cleanSheet sheetYear rest best

/-- Source `find_best_local_match`, parameterised over the two external
scoring functions.  Starts from `(None, -1)` and finally reports
`min(int(best_score), 100)`. -/
def find_best_local_match (tsr psr : Str → Str → ℤ) (sheetNameStr : Str)
    (localFiles : List Str) : Option Str × ℤ :=
  let r := find_best_aux tsr psr (normalize_text sheetNameStr)
    (extract_year sheetNameStr) localFiles (none, -1)
  (r.1, min (pyTrunc r.2) 100)

/- ### Result parsing of `save_results` (Analysis.py lines 342-376)

Each output line of the batch backend is decoded by the external
`json.loads` and attribute probing; `EntryShape` models the possible
outcomes of that decoding for one line, at the granularity the source
code's control flow distinguishes.  The inner `json.loads` on the
fence-stripped response text (together with the `.get` calls on its
result) is likewise external and passed in as the parameter `ip`. -/

/-- Outcome of extracting `entry['response']['candidates'][0]['content']
['parts'][0]['text']` from a decoded line. -/
inductive RespShape where
  /-- `'response' not in entry` or `'candidates' not in entry['response']`:
  the source's `else` branch (blocked / failed generation). -/
  | missing : RespShape
  /-- the keys exist but the nested indexing raises (e.g. empty
  `candidates` list): caught by the `except` clause. -/
  | broken : RespShape
  /-- the nested text was extracted successfully. -/
  | text (t : Str) : RespShape
deriving DecidableEq

/-- Outcome of `json.loads(line)` plus `entry.get("custom_id")` for one
output line. -/
inductive EntryShape where
  /-- `json.loads` raised on this line. -/
  | badJson : EntryShape
  /-- `custom_id` was absent or `None`, so `.split` raises. -/
  | noCustomId : EntryShape
  /-- a decoded object carrying its `custom_id` string and response shape. -/
  | entry (customId : Str) (resp : RespShape) : EntryShape
deriving DecidableEq

/-- One row of the final CSV table. -/
structure ResultRow where
  row : ℤ
  snippet : Str
  methodology : Option Str
  reason : Option Str
deriving DecidableEq

/-- Python `custom_id.split("::", 1)`: the part before the first `::` and,
when the separator occurs, the part after it. -/
def splitOnSep2 : Str → Str × Option Str
  | [] => ([], none)
  | c :: rest =>
    if [':', ':'].isPrefixOf (c :: rest) then ([], some (rest.drop 1))
    else
      let r := splitOnSep2 rest
      (c :: r.1, r.2)

/-- Digit group as accepted by Python `int()` after the optional sign:
nonempty decimal digits, with single underscores allowed strictly between
digits (`"1_2"` is accepted, `"_1"`, `"1_"` and `"1__2"` are not). -/
def digitsOk : Str → Bool
  | [] => false
  | [c] => isDigitA c
  | c :: d :: rest =>
    isDigitA c &&
      ((isDigitA d && digitsOk (d :: rest)) || (d == '_' && digitsOk rest))

/-- Value of a digit group (underscores are grouping only and ignored). -/
def digitsVal? (l : Str) : Option ℕ :=
  if digitsOk l then
    some ((l.filter isDigitA).foldl (fun a c => 10 * a + (c.toNat - 48)) 0)
  else none

/-- Python `str.strip()`: drop whitespace at both ends. -/
def pyStrip (s : Str) : Str :=
  ((s.dropWhile isPySpace).reverse.dropWhile isPySpace).reverse

/-- Python `int()` applied to a string: optional surrounding whitespace,
an optional sign, then decimal digits with optional underscore grouping;
anything else raises (modelled as `none`). -/
def pyInt? (s : Str) : Option ℤ :=
  match pyStrip s with
  | '-' :: ds => (digitsVal? ds).map (fun n => -(n : ℤ))
  | '+' :: ds => (digitsVal? ds).map (fun n => (n : ℤ))
  | ds => (digitsVal? ds).map (fun n => (n : ℤ))

/-- Backtick character, used by the markdown fences. -/
def btick : Char := Char.ofNat 96

/-- Source cleanup of the response text:
`candidate.replace("```json", "").replace("```", "").strip()`. -/
def cleanFences (t : Str) : Str :=
  pyStrip (replaceAll btick [btick, btick] []
    (replaceAll btick [btick, btick, 'j', 's', 'o', 'n'] [] t))

/-- Outcome of processing one output line: an appended result row, the
"failed model generation (Blocked/Error)" diagnostic carrying the row
string, or the "Error parsing line" diagnostic of the `except` clause. -/
inductive LineOut where
  | row (r : ResultRow) : LineOut
  | blockedDiag (rowStr : Str) : LineOut
  | parseErr : LineOut
deriving DecidableEq

/-- Whether a line outcome contributed a row to `results_list`. -/
def isRowOut : LineOut → Bool
  | LineOut.row _ => true
  | _ => false

/-- The loop body of the result parsing in `save_results` on one decoded
line.  `ip` models `json.loads` on the fence-stripped response text
followed by `.get("methodology")` and `.get("reason")` (`none` for a raise). -/
def processLine (ip : Str → Option (Option Str × Option Str)) :
    EntryShape → LineOut
  | EntryShape.badJson => LineOut.parseErr
  | EntryShape.noCustomId => LineOut.parseErr
  | EntryShape.entry customId resp =>
    let parts := splitOnSep2 customId
    let rowStr := parts.1
    let snippet := parts.2.getD []
    match resp with
    | RespShape.missing => LineOut.blockedDiag rowStr
    | RespShape.broken => LineOut.parseErr
    | RespShape.text t =>
      match ip (cleanFences t) with
      | none => LineOut.parseErr
      | some d =>
        match pyInt? rowStr with
        | none => LineOut.parseErr
        | some n => LineOut.row ⟨n, snippet, d.1, d.2⟩

/-- `results_list` as built by the parsing loop: rows of the successful
lines, in input order. -/
def parseLines (ip : Str → Option (Option Str × Option Str))
    (lines : List EntryShape) : List ResultRow :=
  lines.filterMap (fun e =>
    match processLine ip e with
    | LineOut.row r => some r
    | _ => none)

/-- Sort key of `results_list.sort(key=lambda x: x["Row"])`. -/
def rowLe (a b : ResultRow) : Prop := a.row ≤ b.row

instance : DecidableRel rowLe :=
  fun a b => inferInstanceAs (Decidable (a.row ≤ b.row))

instance : IsTotal ResultRow rowLe :=
  ⟨fun a b => Int.le_total a.row b.row⟩

instance : IsTrans ResultRow rowLe :=
  ⟨fun _ _ _ hab hbc => le_trans hab hbc⟩

/-- The final result table of `save_results`: the parsed rows sorted by
`Row` ascending (Python's stable sort, modelled by stable insertion sort). -/
def save_results_table (ip : Str → Option (Option Str × Option Str))
    (lines : List EntryShape) : List ResultRow :=
  List.insertionSort rowLe (parseLines ip lines)

/-- The diagnostics emitted by the parsing loop, in input order. -/
def lineDiags (ip : Str → Option (Option Str × Option Str))
    (lines : List EntryShape) : List LineOut :=
  (lines.map (processLine ip)).filter (fun o => !isRowOut o)

/- ### Reference definitions taken from the specification's words

These are compared with the source-derived definitions above.  They are
the only definitions in this file written from the spec text rather than
from `Analysis.py`. -/

/-- Spec wording for `normalize`: "strips a literal \".pdf\" suffix" read
as stripping one trailing occurrence only. -/
def stripSuffixPdf (s : Str) : Str :=
  if ['.', 'p', 'd', 'f'].isSuffixOf s then s.take (s.length - 4) else s

/-- Spec wording: "collapses runs of whitespace to single spaces" — every
maximal run of whitespace characters becomes one space. -/
def collapseWs (l : Str) : Str :=
  match l with
  | [] => []
  | c :: rest =>
    if isPySpace c then ' ' :: collapseWs (rest.dropWhile isPySpace)
    else c :: collapseWs rest
termination_by l.length
decreasing_by
  · simp only [List.length_cons]
    have h : ∀ (l₀ : Str), (l₀.dropWhile isPySpace).length ≤ l₀.length := by
      intro l₀
      induction l₀ with
      | nil => simp [List.dropWhile]
      | cons a as ih =>
        by_cases ha : isPySpace a = true
        · simp [List.dropWhile_cons, ha]
          omega
        · simp [List.dropWhile_cons, ha]
    have := h rest
    omega
  · simp only [List.length_cons]
    omega

/-- Drop trailing whitespace. -/
def trimEnd (s : Str) : Str :=
  (s.reverse.dropWhile isPySpace).reverse

/-- Spec wording: "trims" — drop leading and trailing whitespace. -/
def trimWs (s : Str) : Str :=
  trimEnd (s.dropWhile isPySpace)

/-- Claim C5's reference definition of `normalize`, as the claim words it:
lower-case, strip a trailing `.pdf` suffix only, replace every character
outside `[a-z0-9\s]` with a space, collapse whitespace runs to single
spaces, trim. -/
def refNormalize (s : Str) : Str :=
  trimWs (collapseWs (List.map subChar (stripSuffixPdf (List.map pyLower s))))

/-- The amended reference definition: identical except that every
occurrence of `.pdf` is removed, not only a trailing one. -/
def refNormalizeAll (s : Str) : Str :=
  trimWs (collapseWs (List.map subChar
    (replaceAll '.' ['p', 'd', 'f'] [] (List.map pyLower s))))

/-- Four characters forming `(19|20)\d{2}` at the head of `l` (no
boundary requirement): the claim's "4-digit number beginning with 19 or
20". -/
def yearPatAt (l : Str) : Bool :=
  match l with
  | c1 :: c2 :: c3 :: c4 :: _ =>
    ((c1 == '1' && c2 == '9') || (c1 == '2' && c2 == '0')) &&
      isDigitA c3 && isDigitA c4
  | _ => false

/-- Whether position `i` of `l` holds a word character (`false` out of
range). -/
def wordAt (l : Str) (i : ℕ) : Bool :=
  match l.drop i with
  | c :: _ => isWordChar c
  | [] => false

/-- Word-boundary condition for an explicitly supplied previous
character. -/
def prevOK : Option Char → Bool
  | none => true
  | some p => !isWordChar p

/-- Year token at index `i`, delimited by word boundaries, relative to a
previous-character context `prev` for index 0. -/
def boundTokAtP (prev : Option Char) (l : Str) (i : ℕ) : Bool :=
  yearPatAt (l.drop i) &&
    (if i = 0 then prevOK prev else !wordAt l (i - 1)) &&
    !wordAt l (i + 4)

/-- Year token at index `i` of `l`, delimited by word boundaries. -/
def boundTokAt (l : Str) (i : ℕ) : Bool :=
  yearPatAt (l.drop i) && (decide (i = 0) || !wordAt l (i - 1)) && !wordAt l (i + 4)

/-- Amended reference definition for `extract_year`: the first index
holding a boundary-delimited `(19|20)\d{2}` token, returned as its four
characters. -/
def specYearTok (l : Str) : Option Str :=
  ((List.range l.length).find? (boundTokAt l)).map (fun i => (l.drop i).take 4)

/- ### Helper lemmas: truncation and score bounds -/

theorem pyTrunc_intCast (n : ℤ) : pyTrunc (n : ℚ) = n := by
  unfold pyTrunc
  split <;> simp [Int.floor_intCast, Int.ceil_intCast]

theorem pyTrunc_neg_one : pyTrunc (-1 : ℚ) = -1 := by
  simpa using pyTrunc_intCast (-1)

theorem pyTrunc_nonneg {q : ℚ} (h : 0 ≤ q) : 0 ≤ pyTrunc q := by
  rw [pyTrunc, if_pos h]
  exact Int.floor_nonneg.mpr h

theorem bonus_lt_one {len : ℕ} (hl : len < 1000) : (len : ℚ) / 1000 < 1 := by
  rw [div_lt_one (by norm_num)]
  exact_mod_cast hl

theorem pyTrunc_int_add_bonus (n : ℤ) (len : ℕ) (hn : 0 ≤ n) (hl : len < 1000) :
    pyTrunc ((n : ℚ) + (len : ℚ) / 1000) = n := by
  have hb0 : (0 : ℚ) ≤ (len : ℚ) / 1000 := by positivity
  have hb1 : (len : ℚ) / 1000 < 1 := bonus_lt_one hl
  have hq : (0 : ℚ) ≤ (n : ℚ) + (len : ℚ) / 1000 := by
    have hn' : (0 : ℚ) ≤ (n : ℚ) := by exact_mod_cast hn
    linarith
  rw [pyTrunc, if_pos hq, Int.floor_int_add]
  have h0 : ⌊(len : ℚ) / 1000⌋ = 0 := Int.floor_eq_zero_iff.mpr ⟨hb0, hb1⟩
  omega

theorem finalScore_range (tsr psr : Str → Str → ℤ) (cs cf : Str)
    (hts : ∀ a b, 0 ≤ tsr a b ∧ tsr a b ≤ 100)
    (hps : ∀ a b, 0 ≤ psr a b ∧ psr a b ≤ 100) :
    0 ≤ finalScore tsr psr cs cf ∧ finalScore tsr psr cs cf ≤ 100 := by
  unfold finalScore
  split
  · exact ⟨le_trans (hts cs cf).1 (le_max_left _ _), max_le (hts cs cf).2 (hps cs cf).2⟩
  · exact hts cs cf

/- ### Helper lemmas: the candidate loop -/

theorem find_best_aux_all_skip (tsr psr : Str → Str → ℤ) (cs : Str)
    (sy : Option Str) :
    ∀ (files : List Str) (best : Option Str × ℚ),
      (∀ f ∈ files, sy.isSome ∧ (extract_year f).isSome ∧ sy ≠ extract_year f) →
      find_best_aux tsr psr cs sy files best = best := by
  intro files
  induction files with
  | nil => intro best _; rfl
  | cons f rest ih =>
    intro best h
    have hf := h f (by simp)
    simp only [find_best_aux]
    rw [if_pos hf]
    exact ih best (fun g hg => h g (by simp [hg]))

theorem find_best_aux_ne_of_guard (tsr psr : Str → Str → ℤ) (cs : Str)
    (sy : Option Str) (f0 : Str)
    (hg : sy.isSome ∧ (extract_year f0).isSome ∧ sy ≠ extract_year f0) :
    ∀ (files : List Str) (best : Option Str × ℚ), best.1 ≠ some f0 →
      (find_best_aux tsr psr cs sy files best).1 ≠ some f0 := by
  intro files
  induction files with
  | nil => intro best hb; simpa [find_best_aux] using hb
  | cons f rest ih =>
    intro best hb
    by_cases hc : sy.isSome ∧ (extract_year f).isSome ∧ sy ≠ extract_year f
    · simp only [find_best_aux]
      rw [if_pos hc]
      exact ih best hb
    · have hne : f ≠ f0 := by
        rintro rfl
        exact hc hg
      simp only [find_best_aux]
      rw [if_neg hc]
      split
      · apply ih
        simp only [ne_eq, Option.some.injEq]
        exact hne
      · exact ih best hb

theorem find_best_aux_char (tsr psr : Str → Str → ℤ) (cs : Str)
    (sy : Option Str) (F : List Str) :
    ∀ (files : List Str) (best : Option Str × ℚ),
      (∀ f ∈ files, f ∈ F) →
      (best = (none, -1) ∨
        ∃ f ∈ F, best.1 = some f ∧ best.2 = bonusedScore tsr psr cs f) →
      (find_best_aux tsr psr cs sy files best = (none, -1) ∨
        ∃ f ∈ F, (find_best_aux tsr psr cs sy files best).1 = some f ∧
          (find_best_aux tsr psr cs sy files best).2 = bonusedScore tsr psr cs f) := by
  intro files
  induction files with
  | nil =>
    intro best _ hb
    simpa [find_best_aux] using hb
  | cons f rest ih =>
    intro best hsub hb
    have hfF : f ∈ F := hsub f (by simp)
    have hsub' : ∀ g ∈ rest, g ∈ F := fun g hg => hsub g (by simp [hg])
    simp only [find_best_aux]
    split
    · exact ih best hsub' hb
    · split
      · exact ih _ hsub' (Or.inr ⟨f, hfF, rfl, rfl⟩)
      · exact ih best hsub' hb

/- ### Claims C1, C3 -/

/-- Claim C1: whenever the citation and a candidate filename both carry a
year token (on the raw, pre-normalization strings) and the tokens differ,
`find_best_local_match` never returns that filename, for every pair of
scoring functions — no matter how high the similarity scores are. -/
theorem guardrail_never_selects_mismatched_year
    (tsr psr : Str → Str → ℤ) (cit fname : Str) (files : List Str)
    (y y1 : Str) (hc : extract_year cit = some y)
    (hf : extract_year fname = some y1) (hne : y ≠ y1) :
    (find_best_local_match tsr psr cit files).1 ≠ some fname := by
  have hg : (extract_year cit).isSome ∧ (extract_year fname).isSome ∧
      extract_year cit ≠ extract_year fname := by
    refine ⟨by simp [hc], by simp [hf], ?_⟩
    rw [hc, hf]
    simp [hne]
  simp only [find_best_local_match]
  exact find_best_aux_ne_of_guard tsr psr (normalize_text cit) (extract_year cit)
    fname hg files (none, -1) (by simp)

/-- Claim C1 witness: a 2019 citation never matches a 2020 file, even with
both scorers pinned at 100. -/
theorem guardrail_never_selects_mismatched_year_w :
    extract_year ("Smith, J. (2019). Deep Learning Methods".toList) =
      some ("2019".toList) ∧
    extract_year ("smith-2020-deep.pdf".toList) = some ("2020".toList) ∧
    "2019".toList ≠ "2020".toList ∧
    (find_best_local_match (fun _ _ => 100) (fun _ _ => 100)
      ("Smith, J. (2019). Deep Learning Methods".toList)
      [("smith-2020-deep.pdf".toList)]).1 ≠ some ("smith-2020-deep.pdf".toList) :=
  ⟨by decide, by decide, by decide,
    guardrail_never_selects_mismatched_year (fun _ _ => 100) (fun _ _ => 100)
      ("Smith, J. (2019). Deep Learning Methods".toList)
      ("smith-2020-deep.pdf".toList) [("smith-2020-deep.pdf".toList)]
      ("2019".toList) ("2020".toList)
      (by decide) (by decide) (by decide)⟩

/-- Claim C3: when the candidate list is empty, and more generally when
every candidate is eliminated by the year guardrail, the result is the
sentinel pair `(None, -1)` (the hypothesis holds vacuously for `[]`); the
Lean model is total, so no exception is possible. -/
theorem all_eliminated_gives_sentinel
    (tsr psr : Str → Str → ℤ) (cit : Str) (files : List Str)
    (h : ∀ f ∈ files, (extract_year cit).isSome ∧ (extract_year f).isSome ∧
      extract_year cit ≠ extract_year f) :
    find_best_local_match tsr psr cit files = (none, -1) := by
  simp only [find_best_local_match]
  rw [find_best_aux_all_skip tsr psr (normalize_text cit) (extract_year cit)
    files (none, -1) h]
  rw [pyTrunc_neg_one]
  norm_num

/-- Claim C3 witness: a nonempty candidate list in which both candidates
are eliminated by the year guardrail yields the sentinel. -/
theorem all_eliminated_gives_sentinel_w :
    (∀ f ∈ [("smith-2020.pdf".toList), ("jones 2021 study.pdf".toList)],
      (extract_year ("smith 2019".toList)).isSome ∧ (extract_year f).isSome ∧
      extract_year ("smith 2019".toList) ≠ extract_year f) ∧
    find_best_local_match (fun _ _ => 99) (fun _ _ => 99) ("smith 2019".toList)
      [("smith-2020.pdf".toList), ("jones 2021 study.pdf".toList)] = (none, -1) :=
  ⟨by decide, all_eliminated_gives_sentinel _ _ _ _ (by decide)⟩

/- ### Claim C2 -/

/-- Claim C2 counterexample: for the empty candidate list (and likewise
when every candidate is eliminated) the reported confidence is the
sentinel value -1, which is not in [0,100] — the claim's "for every
candidate list" range statement is false. -/
theorem confidence_sentinel_outside_range :
    (find_best_local_match (fun _ _ => 0) (fun _ _ => 0) ['x'] []).2 = -1 ∧
    ¬(0 ≤ (find_best_local_match (fun _ _ => 0) (fun _ _ => 0) ['x'] []).2 ∧
      (find_best_local_match (fun _ _ => 0) (fun _ _ => 0) ['x'] []).2 ≤ 100) := by
  have h : (find_best_local_match (fun _ _ => 0) (fun _ _ => 0) ['x'] []).2 = -1 := by
    simp only [find_best_local_match, find_best_aux]
    rw [pyTrunc_neg_one]
    norm_num
  refine ⟨h, ?_⟩
  rw [h]
  norm_num

/-- Claim C2 (amended): provided both scorers return values in [0,100],
the reported confidence is an integer in [0,100] whenever a filename is
returned, and it is the sentinel -1 (with no filename) when the candidate
list is empty or every candidate was eliminated by the guardrail. -/
theorem confidence_range_amended (tsr psr : Str → Str → ℤ) (cit : Str)
    (files : List Str)
    (hts : ∀ a b, 0 ≤ tsr a b ∧ tsr a b ≤ 100)
    (hps : ∀ a b, 0 ≤ psr a b ∧ psr a b ≤ 100) :
    ((find_best_local_match tsr psr cit files).1 = none ∧
      (find_best_local_match tsr psr cit files).2 = -1) ∨
    ((find_best_local_match tsr psr cit files).1.isSome ∧
      0 ≤ (find_best_local_match tsr psr cit files).2 ∧
      (find_best_local_match tsr psr cit files).2 ≤ 100) := by
  have hchar := find_best_aux_char tsr psr (normalize_text cit) (extract_year cit)
    files files (none, -1) (fun f hf => hf) (Or.inl rfl)
  simp only [find_best_local_match]
  rcases hchar with h | ⟨f, hfF, h1, h2⟩
  · left
    rw [h]
    rw [pyTrunc_neg_one]
    norm_num
  · right
    refine ⟨by rw [h1]; rfl, ?_, ?_⟩
    · rw [h2]
      have hfin := finalScore_range tsr psr (normalize_text cit) (normalize_text f) hts hps
      have hq : (0 : ℚ) ≤ bonusedScore tsr psr (normalize_text cit) f := by
        unfold bonusedScore
        have h0 : (0 : ℚ) ≤ (finalScore tsr psr (normalize_text cit) (normalize_text f) : ℚ) := by
          exact_mod_cast hfin.1
        positivity
      exact le_min (pyTrunc_nonneg hq) (by norm_num)
    · rw [h2]
      exact min_le_right _ _

/-- Claim C2 (amended) witness: with in-range scorers and one matching
candidate, the reported pair is a selected filename with confidence in
[0,100]. -/
theorem confidence_range_amended_w :
    ((find_best_local_match (fun _ _ => 73) (fun _ _ => 88) ("alpha".toList)
        [("beta.pdf".toList)]).1 = none ∧
      (find_best_local_match (fun _ _ => 73) (fun _ _ => 88) ("alpha".toList)
        [("beta.pdf".toList)]).2 = -1) ∨
    ((find_best_local_match (fun _ _ => 73) (fun _ _ => 88) ("alpha".toList)
        [("beta.pdf".toList)]).1.isSome ∧
      0 ≤ (find_best_local_match (fun _ _ => 73) (fun _ _ => 88) ("alpha".toList)
        [("beta.pdf".toList)]).2 ∧
      (find_best_local_match (fun _ _ => 73) (fun _ _ => 88) ("alpha".toList)
        [("beta.pdf".toList)]).2 ≤ 100) :=
  confidence_range_amended (fun _ _ => 73) (fun _ _ => 88) ("alpha".toList)
    [("beta.pdf".toList)] (fun _ _ => by norm_num) (fun _ _ => by norm_num)

/- ### Helper lemmas: list utilities for evaluation proofs -/

theorem replaceAll_id_of_head_notMem (p : Char) (ps rep : Str) :
    ∀ (s : Str), (∀ c ∈ s, c ≠ p) → replaceAll p ps rep s = s := by
  intro s
  induction s with
  | nil => intro _; simp [replaceAll]
  | cons c rest ih =>
    intro h
    have hcp : (p == c) = false := by
      simp only [beq_eq_false_iff_ne, ne_eq]
      exact fun hpc => h c (by simp) hpc.symm
    rw [replaceAll]
    rw [if_neg (by simp [List.isPrefixOf_cons₂, hcp])]
    rw [ih (fun d hd => h d (by simp [hd]))]

theorem takeWhile_eq_self_of (q : Char → Bool) :
    ∀ (l : Str), (∀ c ∈ l, q c = true) → l.takeWhile q = l := by
  intro l
  induction l with
  | nil => intro _; rfl
  | cons c rest ih =>
    intro h
    rw [List.takeWhile_cons, if_pos (h c (by simp))]
    rw [ih (fun d hd => h d (by simp [hd]))]

theorem dropWhile_eq_nil_of (q : Char → Bool) :
    ∀ (l : Str), (∀ c ∈ l, q c = true) → l.dropWhile q = [] := by
  intro l
  induction l with
  | nil => intro _; rfl
  | cons c rest ih =>
    intro h
    rw [List.dropWhile_cons, if_pos (h c (by simp))]
    exact ih (fun d hd => h d (by simp [hd]))

/-- A nonempty all-non-whitespace string splits into itself as the single
token. -/
theorem splitWs_single (t : Str) (hne : t ≠ [])
    (hns : ∀ c ∈ t, isPySpace c = false) : splitWs t = [t] := by
  match t, hne with
  | c :: rest, _ =>
    rw [splitWs]
    rw [if_neg (by simp [hns c (by simp)])]
    rw [takeWhile_eq_self_of _ rest (fun d hd => by simp [hns d (by simp [hd])])]
    rw [dropWhile_eq_nil_of _ rest (fun d hd => by simp [hns d (by simp [hd])])]
    simp [splitWs]

/-- `normalize_text` fixes a block of `a` characters. -/
theorem normalize_replicate_a (n : ℕ) :
    normalize_text (List.replicate n 'a') = List.replicate n 'a' := by
  unfold normalize_text
  rw [List.map_replicate, show pyLower 'a' = 'a' from by decide]
  rw [replaceAll_id_of_head_notMem _ _ _ _
    (fun c hc => by rw [List.eq_of_mem_replicate hc]; decide)]
  rw [List.map_replicate, show subChar 'a' = 'a' from by decide]
  cases n with
  | zero => simp [splitWs, joinSpace]
  | succ m =>
    rw [splitWs_single _ (by simp)
      (fun c hc => by rw [List.eq_of_mem_replicate hc]; decide)]
    rfl

/-- The year regex never matches inside a block of `a` characters. -/
theorem extract_year_replicate_a (n : ℕ) :
    extract_year (List.replicate n 'a') = none := by
  have key : ∀ (m : ℕ) (prev : Option Char),
      searchYearAux prev (List.replicate m 'a') = none := by
    intro m
    induction m with
    | zero => intro prev; rfl
    | succ k ih =>
      intro prev
      rw [List.replicate_succ, searchYearAux]
      have hf : yearHereB prev ('a' :: List.replicate k 'a') = false := by
        rcases k with _ | _ | _ | k₀ <;> simp +decide [yearHereB, List.replicate_succ]
      rw [if_neg (by simp [hf])]
      exact ih (some 'a')
  exact key n none

/- ### Claim C4 -/

/-- Claim C4 counterexample: for a candidate whose normalized filename has
length 1000 the tie-break bonus is 1000/1000 = 1, not strictly less than
one point, and the reported confidence (1) differs from the candidate's
unbonused score (0): the bonus leaks into the report. -/
theorem bonus_reaches_one_and_leaks :
    ¬(((normalize_text (List.replicate 1000 'a')).length : ℚ) / 1000 < 1) ∧
    finalScore (fun _ _ => 0) (fun _ _ => 0) (normalize_text ['x'])
      (normalize_text (List.replicate 1000 'a')) = 0 ∧
    (find_best_local_match (fun _ _ => 0) (fun _ _ => 0) ['x']
      [List.replicate 1000 'a']).2 = 1 := by
  have hn := normalize_replicate_a 1000
  have hy := extract_year_replicate_a 1000
  have hlen : (normalize_text (List.replicate 1000 'a')).length = 1000 := by
    rw [hn, List.length_replicate]
  have hfs : finalScore (fun _ _ => 0) (fun _ _ => 0) (normalize_text ['x'])
      (normalize_text (List.replicate 1000 'a')) = 0 := by
    unfold finalScore
    split <;> simp
  have hb : bonusedScore (fun _ _ => 0) (fun _ _ => 0) (normalize_text ['x'])
      (List.replicate 1000 'a') = 1 := by
    unfold bonusedScore
    rw [hfs, hlen]
    norm_num
  refine ⟨by rw [hlen]; norm_num, hfs, ?_⟩
  have step : find_best_aux (fun _ _ => 0) (fun _ _ => 0) (normalize_text ['x'])
      (extract_year ['x']) [List.replicate 1000 'a'] (none, -1) =
      (some (List.replicate 1000 'a'), 1) := by
    simp only [find_best_aux]
    rw [if_neg (fun h => absurd h.2.1 (by rw [hy]; simp))]
    rw [if_pos (by rw [hb]; norm_num)]
    rw [hb]
  simp only [find_best_local_match, step]
  rw [show (1 : ℚ) = ((1 : ℤ) : ℚ) by norm_num, pyTrunc_intCast]
  norm_num

/-- Claim C4 (amended): when every candidate's normalized filename is
shorter than 1000 characters, the tie-break bonus is strictly below one
point for each candidate and, with in-range scorers, the reported
confidence for a winning candidate equals its unbonused score (whose
clamp to [0,100] is then the identity). -/
theorem bonus_excluded_amended (tsr psr : Str → Str → ℤ) (cit : Str)
    (files : List Str) (w : Str)
    (hts : ∀ a b, 0 ≤ tsr a b ∧ tsr a b ≤ 100)
    (hps : ∀ a b, 0 ≤ psr a b ∧ psr a b ≤ 100)
    (hlen : ∀ f ∈ files, (normalize_text f).length < 1000)
    (hw : (find_best_local_match tsr psr cit files).1 = some w) :
    (∀ f ∈ files, ((normalize_text f).length : ℚ) / 1000 < 1) ∧
    (find_best_local_match tsr psr cit files).2 =
      finalScore tsr psr (normalize_text cit) (normalize_text w) := by
  refine ⟨fun f hf => bonus_lt_one (hlen f hf), ?_⟩
  have hchar := find_best_aux_char tsr psr (normalize_text cit) (extract_year cit)
    files files (none, -1) (fun f hf => hf) (Or.inl rfl)
  simp only [find_best_local_match] at hw ⊢
  rcases hchar with h | ⟨f, hfF, h1, h2⟩
  · rw [h] at hw
    simp at hw
  · rw [h1] at hw
    have hfw : f = w := by simpa using hw
    subst hfw
    rw [h2]
    unfold bonusedScore
    have hfin := finalScore_range tsr psr (normalize_text cit) (normalize_text f) hts hps
    rw [pyTrunc_int_add_bonus _ _ hfin.1 (hlen f hfF)]
    exact min_eq_left hfin.2

/-- Claim C4 (amended) witness: a short candidate wins and the reported
confidence equals its unbonused score. -/
theorem bonus_excluded_amended_w :
    ((find_best_local_match (fun _ _ => 42) (fun _ _ => 77) ['x']
        [['a', 'b', '.', 'p', 'd', 'f']]).1 = some ['a', 'b', '.', 'p', 'd', 'f']) ∧
    (∀ f ∈ [['a', 'b', '.', 'p', 'd', 'f']], (normalize_text f).length < 1000) ∧
    (find_best_local_match (fun _ _ => 42) (fun _ _ => 77) ['x']
        [['a', 'b', '.', 'p', 'd', 'f']]).2 =
      finalScore (fun _ _ => 42) (fun _ _ => 77) (normalize_text ['x'])
        (normalize_text ['a', 'b', '.', 'p', 'd', 'f']) := by
  have hclean : normalize_text ['a', 'b', '.', 'p', 'd', 'f'] = ['a', 'b'] := by
    simp +decide [normalize_text, replaceAll, splitWs, joinSpace, subChar, pyLower]
  have hy1 : extract_year ['x'] = none := by decide
  have hy2 : extract_year ['a', 'b', '.', 'p', 'd', 'f'] = none := by decide
  have hb : bonusedScore (fun _ _ => 42) (fun _ _ => 77) (normalize_text ['x'])
      ['a', 'b', '.', 'p', 'd', 'f'] = 42 + 2 / 1000 := by
    unfold bonusedScore
    rw [hclean]
    norm_num [finalScore]
  have hw : (find_best_local_match (fun _ _ => 42) (fun _ _ => 77) ['x']
      [['a', 'b', '.', 'p', 'd', 'f']]).1 = some ['a', 'b', '.', 'p', 'd', 'f'] := by
    simp only [find_best_local_match, find_best_aux]
    rw [if_neg (by simp [hy1])]
    rw [if_pos (by rw [hb]; norm_num)]
  have hlen : ∀ f ∈ [['a', 'b', '.', 'p', 'd', 'f']],
      (normalize_text f).length < 1000 := by
    intro f hf
    simp only [List.mem_singleton] at hf
    subst hf
    rw [hclean]
    norm_num
  exact ⟨hw, hlen, (bonus_excluded_amended (fun _ _ => 42) (fun _ _ => 77) ['x']
    [['a', 'b', '.', 'p', 'd', 'f']] ['a', 'b', '.', 'p', 'd', 'f']
    (fun _ _ => by norm_num) (fun _ _ => by norm_num) hlen hw).2⟩

/- ### Helper lemmas: character classes -/

theorem alnum_not_space {c : Char} (h : isLowerAlnum c = true) :
    isPySpace c = false := by
  simp only [isLowerAlnum, isLowerAlpha, isDigitA, Bool.or_eq_true,
    Bool.and_eq_true, decide_eq_true_eq] at h
  simp only [isPySpace, Bool.or_eq_false_iff, decide_eq_false_iff_not]
  omega

theorem alnum_ne_dot {c : Char} (h : isLowerAlnum c = true) : c ≠ '.' := by
  rintro rfl
  exact absurd h (by decide)

theorem pyLower_id_of_class {c : Char}
    (h : isLowerAlnum c = true ∨ c = ' ') : pyLower c = c := by
  rcases h with h | rfl
  · simp only [isLowerAlnum, isLowerAlpha, isDigitA, Bool.or_eq_true,
      Bool.and_eq_true, decide_eq_true_eq] at h
    rw [pyLower, if_neg (by omega)]
  · decide

theorem subChar_id_of_class {c : Char}
    (h : isLowerAlnum c = true ∨ c = ' ') : subChar c = c := by
  rcases h with h | rfl
  · rw [subChar, if_pos (by simp [h])]
  · decide

theorem subChar_class (a : Char) :
    isLowerAlnum (subChar a) = true ∨ isPySpace (subChar a) = true := by
  rw [subChar]
  split
  · rename_i h
    rcases Bool.or_eq_true _ _ ▸ h with h1 | h1
    · exact Or.inl h1
    · exact Or.inr h1
  · exact Or.inr (by decide)

/- ### Helper lemmas: takeWhile, dropWhile, splitWs, joinSpace -/

theorem mem_takeWhile_and (q : Char → Bool) :
    ∀ (l : Str) (a : Char), a ∈ l.takeWhile q → q a = true ∧ a ∈ l := by
  intro l
  induction l with
  | nil => intro a ha; simp [List.takeWhile] at ha
  | cons c rest ih =>
    intro a ha
    rw [List.takeWhile_cons] at ha
    by_cases hc : q c = true
    · rw [if_pos hc] at ha
      rcases List.mem_cons.1 ha with rfl | ha
      · exact ⟨hc, by simp⟩
      · exact ⟨(ih a ha).1, by simp [(ih a ha).2]⟩
    · rw [if_neg hc] at ha
      simp at ha

theorem mem_dropWhile_mem (q : Char → Bool) :
    ∀ (l : Str) (a : Char), a ∈ l.dropWhile q → a ∈ l := by
  intro l
  induction l with
  | nil => intro a ha; simp [List.dropWhile] at ha
  | cons c rest ih =>
    intro a ha
    rw [List.dropWhile_cons] at ha
    by_cases hc : q c = true
    · rw [if_pos hc] at ha
      exact by simp [ih a ha]
    · rw [if_neg hc] at ha
      exact ha

theorem dropWhile_length_le (q : Char → Bool) (l : Str) :
    (l.dropWhile q).length ≤ l.length := by
  induction l with
  | nil => simp [List.dropWhile]
  | cons c rest ih =>
    rw [List.dropWhile_cons]
    by_cases hc : q c = true
    · rw [if_pos hc]
      simp only [List.length_cons]
      omega
    · rw [if_neg hc]

theorem dropWhile_head_not (q : Char → Bool) (l : Str) :
    l.dropWhile q = [] ∨ ∃ c r, l.dropWhile q = c :: r ∧ q c = false := by
  induction l with
  | nil => left; rfl
  | cons a as ih =>
    rw [List.dropWhile_cons]
    by_cases ha : q a = true
    · rw [if_pos ha]
      exact ih
    · rw [if_neg ha]
      exact Or.inr ⟨a, as, rfl, by simpa using ha⟩

theorem dropWhile_eq_self_of_all_false (q : Char → Bool) (l : Str)
    (h : ∀ a ∈ l, q a = false) : l.dropWhile q = l := by
  cases l with
  | nil => rfl
  | cons a as => rw [List.dropWhile_cons, if_neg (by simp [h a (by simp)])]

theorem takeWhile_append_all (q : Char → Bool) :
    ∀ (xs ys : Str), (∀ a ∈ xs, q a = true) →
      (xs ++ ys).takeWhile q = xs ++ ys.takeWhile q := by
  intro xs
  induction xs with
  | nil => intro ys _; rfl
  | cons x xs ih =>
    intro ys h
    rw [List.cons_append, List.takeWhile_cons, if_pos (h x (by simp))]
    rw [ih ys (fun a ha => h a (by simp [ha]))]
    rfl

theorem dropWhile_append_all (q : Char → Bool) :
    ∀ (xs ys : Str), (∀ a ∈ xs, q a = true) →
      (xs ++ ys).dropWhile q = ys.dropWhile q := by
  intro xs
  induction xs with
  | nil => intro ys _; rfl
  | cons x xs ih =>
    intro ys h
    rw [List.cons_append, List.dropWhile_cons, if_pos (h x (by simp))]
    exact ih ys (fun a ha => h a (by simp [ha]))

theorem dropWhile_append_of_ne_nil (q : Char → Bool) :
    ∀ (xs ys : Str), xs.dropWhile q ≠ [] →
      (xs ++ ys).dropWhile q = xs.dropWhile q ++ ys := by
  intro xs
  induction xs with
  | nil => intro ys h; exact absurd rfl h
  | cons x xs ih =>
    intro ys h
    by_cases hx : q x = true
    · rw [List.dropWhile_cons, if_pos hx] at h
      simp only [List.cons_append, List.dropWhile_cons, if_pos hx]
      exact ih ys h
    · simp only [List.cons_append, List.dropWhile_cons, if_neg hx]

theorem map_id_of_fix (f : Char → Char) :
    ∀ (l : Str), (∀ a ∈ l, f a = a) → List.map f l = l := by
  intro l
  induction l with
  | nil => intro _; rfl
  | cons a l ih =>
    intro h
    rw [List.map_cons, h a (by simp), ih (fun b hb => h b (by simp [hb]))]

theorem mem_splitWs (l : Str) :
    ∀ t ∈ splitWs l, t ≠ [] ∧ ∀ c ∈ t, isPySpace c = false ∧ c ∈ l := by
  induction l using splitWs.induct with
  | case1 =>
    intro t ht
    rw [splitWs] at ht
    simp at ht
  | case2 c rest h ih =>
    intro t ht
    rw [splitWs, if_pos h] at ht
    have h1 := ih t ht
    exact ⟨h1.1, fun d hd => ⟨(h1.2 d hd).1, by simp [(h1.2 d hd).2]⟩⟩
  | case3 c rest h ih =>
    intro t ht
    rw [splitWs, if_neg h] at ht
    rcases List.mem_cons.1 ht with rfl | ht
    · refine ⟨by simp, fun d hd => ?_⟩
      rcases List.mem_cons.1 hd with rfl | hd
      · exact ⟨by simpa using h, by simp⟩
      · have h2 := mem_takeWhile_and _ rest d hd
        exact ⟨by simpa using h2.1, by simp [h2.2]⟩
    · have h1 := ih t ht
      refine ⟨h1.1, fun d hd => ⟨(h1.2 d hd).1, ?_⟩⟩
      have := mem_dropWhile_mem _ rest d (h1.2 d hd).2
      simp [this]

theorem splitWs_dropWhile (l : Str) :
    splitWs (l.dropWhile isPySpace) = splitWs l := by
  induction l with
  | nil => rfl
  | cons c rest ih =>
    rw [List.dropWhile_cons]
    by_cases hc : isPySpace c = true
    · rw [if_pos hc, ih]
      exact (by rw [splitWs, if_pos hc] : splitWs (c :: rest) = splitWs rest).symm
    · rw [if_neg hc]

theorem splitWs_token_cons (t r : Str) (hne : t ≠ [])
    (hns : ∀ c ∈ t, isPySpace c = false) :
    splitWs (t ++ ' ' :: r) = t :: splitWs r := by
  match t, hne with
  | c :: t0, _ =>
    rw [List.cons_append, splitWs]
    rw [if_neg (by simp [hns c (by simp)])]
    rw [takeWhile_append_all _ t0 (' ' :: r)
      (fun d hd => by simp [hns d (by simp [hd])])]
    rw [dropWhile_append_all _ t0 (' ' :: r)
      (fun d hd => by simp [hns d (by simp [hd])])]
    rw [List.takeWhile_cons, if_neg (by decide)]
    rw [List.dropWhile_cons, if_neg (by decide)]
    rw [(by rw [splitWs, if_pos (by decide)] : splitWs (' ' :: r) = splitWs r)]
    simp

theorem splitWs_joinSpace :
    ∀ (ts : List Str), (∀ t ∈ ts, t ≠ [] ∧ ∀ c ∈ t, isPySpace c = false) →
      splitWs (joinSpace ts) = ts := by
  intro ts
  induction ts with
  | nil =>
    intro _
    rw [joinSpace, splitWs]
  | cons t ts ih =>
    intro h
    cases ts with
    | nil =>
      exact splitWs_single t (h t (by simp)).1 (fun c hc => (h t (by simp)).2 c hc)
    | cons u us =>
      show splitWs (t ++ ' ' :: joinSpace (u :: us)) = t :: u :: us
      rw [splitWs_token_cons t _ (h t (by simp)).1 ((h t (by simp)).2)]
      rw [ih (fun v hv => h v (by simp [hv]))]

theorem mem_joinSpace :
    ∀ (ts : List Str) (c : Char), c ∈ joinSpace ts → c = ' ' ∨ ∃ t ∈ ts, c ∈ t := by
  intro ts
  induction ts with
  | nil => intro c hc; simp [joinSpace] at hc
  | cons t ts ih =>
    intro c hc
    cases ts with
    | nil => exact Or.inr ⟨t, by simp, hc⟩
    | cons u us =>
      have hc2 : c ∈ t ++ ' ' :: joinSpace (u :: us) := hc
      rcases List.mem_append.1 hc2 with hc | hc
      · exact Or.inr ⟨t, by simp, hc⟩
      · rcases List.mem_cons.1 hc with rfl | hc
        · exact Or.inl rfl
        · rcases ih c hc with h | ⟨v, hv, hcv⟩
          · exact Or.inl h
          · exact Or.inr ⟨v, by simp [hv], hcv⟩

theorem joinSpace_ne_nil (t : Str) (ts : List Str) (h : t ≠ []) :
    joinSpace (t :: ts) ≠ [] := by
  cases ts with
  | nil => exact h
  | cons u us =>
    show ¬(t ++ ' ' :: joinSpace (u :: us)) = []
    simp

theorem alnum_ne_space {c : Char} (h : isLowerAlnum c = true) : c ≠ ' ' := by
  rintro rfl
  exact absurd h (by decide)

theorem joinSpace_head_alnum (ts : List Str)
    (h : ∀ t ∈ ts, t ≠ [] ∧ ∀ c ∈ t, isLowerAlnum c = true) :
    ∀ c, (joinSpace ts).head? = some c → isLowerAlnum c = true := by
  cases ts with
  | nil => intro c hc; simp [joinSpace] at hc
  | cons t ts =>
    intro c hc
    have ht := h t (by simp)
    match t, ht.1 with
    | d :: t0, _ =>
      have hd : c = d := by
        cases ts with
        | nil =>
          have hc2 : (d :: t0).head? = some c := hc
          simpa using hc2.symm
        | cons u us =>
          have hc2 : ((d :: t0) ++ ' ' :: joinSpace (u :: us)).head? = some c := hc
          simpa using hc2.symm
      subst hd
      exact ht.2 c (by simp)

theorem getLast?_cons_ne (a : Char) (l : Str) (h : l ≠ []) :
    (a :: l).getLast? = l.getLast? := by
  match l, h with
  | b :: l0, _ =>
    rw [List.getLast?_cons, List.getLast?_cons]
    simp

theorem joinSpace_last_alnum :
    ∀ (ts : List Str), (∀ t ∈ ts, t ≠ [] ∧ ∀ c ∈ t, isLowerAlnum c = true) →
      ∀ c, (joinSpace ts).getLast? = some c → isLowerAlnum c = true := by
  intro ts
  induction ts with
  | nil => intro _ c hc; simp [joinSpace] at hc
  | cons t ts ih =>
    intro h c hc
    cases ts with
    | nil =>
      exact (h t (by simp)).2 c (List.mem_of_mem_getLast? hc)
    | cons u us =>
      have hc2 : (t ++ ' ' :: joinSpace (u :: us)).getLast? = some c := hc
      rw [List.getLast?_append] at hc2
      have hne : joinSpace (u :: us) ≠ [] := joinSpace_ne_nil u us (h u (by simp)).1
      rw [getLast?_cons_ne ' ' _ hne] at hc2
      have hex : ∃ x, (joinSpace (u :: us)).getLast? = some x := by
        rcases hJ : joinSpace (u :: us) with _ | ⟨y, ys⟩
        · exact absurd hJ hne
        · exact ⟨_, List.getLast?_cons⟩
      rcases hex with ⟨x, hx⟩
      rw [hx] at hc2
      have hc3 : some x = some c := hc2
      have hxc : x = c := by injection hc3
      rw [← hxc]
      exact ih (fun v hv => h v (by simp [hv])) x hx

theorem chain'_of_all_ne_space (l : Str) (h : ∀ a ∈ l, a ≠ ' ') :
    List.Chain' (fun a b => ¬(a = ' ' ∧ b = ' ')) l := by
  induction l with
  | nil => simp
  | cons a l ih =>
    rw [List.chain'_cons']
    exact ⟨fun b _ hab => (h a (by simp)) hab.1,
      ih (fun b hb => h b (by simp [hb]))⟩

theorem joinSpace_chain' :
    ∀ (ts : List Str), (∀ t ∈ ts, t ≠ [] ∧ ∀ c ∈ t, isLowerAlnum c = true) →
      List.Chain' (fun a b => ¬(a = ' ' ∧ b = ' ')) (joinSpace ts) := by
  intro ts
  induction ts with
  | nil => simp [joinSpace]
  | cons t ts ih =>
    intro h
    cases ts with
    | nil =>
      exact chain'_of_all_ne_space t
        (fun a ha => alnum_ne_space ((h t (by simp)).2 a ha))
    | cons u us =>
      show List.Chain' (fun a b => ¬(a = ' ' ∧ b = ' '))
        (t ++ ' ' :: joinSpace (u :: us))
      rw [List.chain'_append]
      refine ⟨chain'_of_all_ne_space t
        (fun a ha => alnum_ne_space ((h t (by simp)).2 a ha)), ?_, ?_⟩
      · rw [List.chain'_cons']
        refine ⟨?_, ih (fun v hv => h v (by simp [hv]))⟩
        intro y hy hab
        have hy2 : isLowerAlnum y = true :=
          joinSpace_head_alnum (u :: us) (fun v hv => h v (by simp [hv])) y
            (Option.mem_def.1 hy)
        exact (alnum_ne_space hy2) hab.2
      · intro x hx y _ hab
        have hxm := List.mem_of_mem_getLast? (Option.mem_def.1 hx)
        exact (alnum_ne_space ((h t (by simp)).2 x hxm)) hab.1

/- ### The normalized form of `normalize_text`'s output -/

theorem normalize_tokens (s : Str) :
    ∃ ts, normalize_text s = joinSpace ts ∧
      ∀ t ∈ ts, t ≠ [] ∧ ∀ c ∈ t, isLowerAlnum c = true := by
  refine ⟨splitWs (List.map subChar
    (replaceAll '.' ['p', 'd', 'f'] [] (List.map pyLower s))), rfl, ?_⟩
  intro t ht
  have h1 := mem_splitWs _ t ht
  refine ⟨h1.1, fun c hc => ?_⟩
  have h2 := h1.2 c hc
  have h3 : isLowerAlnum c = true ∨ isPySpace c = true := by
    rcases List.mem_map.1 h2.2 with ⟨a, _, rfl⟩
    exact subChar_class a
  rcases h3 with h3 | h3
  · exact h3
  · rw [h2.1] at h3
    exact absurd h3 (by simp)

theorem normalize_id_of_tokens (ts : List Str)
    (h : ∀ t ∈ ts, t ≠ [] ∧ ∀ c ∈ t, isLowerAlnum c = true) :
    normalize_text (joinSpace ts) = joinSpace ts := by
  have hchars : ∀ c ∈ joinSpace ts, isLowerAlnum c = true ∨ c = ' ' := by
    intro c hc
    rcases mem_joinSpace ts c hc with rfl | ⟨t, ht, hct⟩
    · exact Or.inr rfl
    · exact Or.inl ((h t ht).2 c hct)
  unfold normalize_text
  rw [map_id_of_fix pyLower _ (fun a ha => pyLower_id_of_class (hchars a ha))]
  rw [replaceAll_id_of_head_notMem _ _ _ _ (fun c hc => by
    rcases hchars c hc with h1 | rfl
    · exact alnum_ne_dot h1
    · decide)]
  rw [map_id_of_fix subChar _ (fun a ha => subChar_id_of_class (hchars a ha))]
  rw [splitWs_joinSpace ts (fun t ht => ⟨(h t ht).1,
    fun c hc => alnum_not_space ((h t ht).2 c hc)⟩)]

/- ### Claims C9, C10 -/

/-- Claim C9: `normalize_text` is idempotent. -/
theorem normalize_text_idem (s : Str) :
    normalize_text (normalize_text s) = normalize_text s := by
  rcases normalize_tokens s with ⟨ts, heq, hts⟩
  rw [heq, normalize_id_of_tokens ts hts]

/-- Claim C10: every output of `normalize_text` consists only of lowercase
ASCII letters, digits and single-space separators: no uppercase letters or
punctuation, no leading or trailing whitespace (its characters other than
`' '` are alphanumeric, and neither end is a space), and no two
consecutive spaces. -/
theorem normalize_output_clean (s : Str) :
    (∀ c ∈ normalize_text s, isLowerAlnum c = true ∨ c = ' ') ∧
    (normalize_text s).head? ≠ some ' ' ∧
    (normalize_text s).getLast? ≠ some ' ' ∧
    List.Chain' (fun a b => ¬(a = ' ' ∧ b = ' ')) (normalize_text s) := by
  rcases normalize_tokens s with ⟨ts, heq, hts⟩
  rw [heq]
  refine ⟨?_, ?_, ?_, joinSpace_chain' ts hts⟩
  · intro c hc
    rcases mem_joinSpace ts c hc with rfl | ⟨t, ht, hct⟩
    · exact Or.inr rfl
    · exact Or.inl ((hts t ht).2 c hct)
  · intro hh
    exact absurd (joinSpace_head_alnum ts hts ' ' hh) (by decide)
  · intro hh
    exact absurd (joinSpace_last_alnum ts hts ' ' hh) (by decide)

/- ### Helper lemmas: collapseWs and trimming (for the C5 reference) -/

theorem collapseWs_nil : collapseWs [] = [] := by
  rw [collapseWs]

theorem collapseWs_cons_space (c : Char) (rest : Str) (h : isPySpace c = true) :
    collapseWs (c :: rest) = ' ' :: collapseWs (rest.dropWhile isPySpace) := by
  rw [collapseWs, if_pos h]

theorem collapseWs_cons_nonspace (c : Char) (rest : Str) (h : isPySpace c = false) :
    collapseWs (c :: rest) = c :: collapseWs rest := by
  rw [collapseWs, if_neg (by simp [h])]

theorem collapseWs_token_append (t z : Str) (h : ∀ c ∈ t, isPySpace c = false) :
    collapseWs (t ++ z) = t ++ collapseWs z := by
  induction t with
  | nil => rfl
  | cons c t0 ih =>
    rw [List.cons_append, collapseWs_cons_nonspace c _ (h c (by simp))]
    rw [ih (fun d hd => h d (by simp [hd]))]
    rfl

theorem trimEnd_nospace (t : Str) (h : ∀ c ∈ t, isPySpace c = false) :
    trimEnd t = t := by
  unfold trimEnd
  rw [dropWhile_eq_self_of_all_false isPySpace t.reverse
    (fun a ha => h a (List.mem_reverse.1 ha))]
  exact List.reverse_reverse t

theorem trimEnd_append_space (t : Str) : trimEnd (t ++ [' ']) = trimEnd t := by
  unfold trimEnd
  rw [List.reverse_append]
  show ((' ' :: t.reverse).dropWhile isPySpace).reverse = _
  rw [List.dropWhile_cons, if_pos (by decide)]

theorem trimEnd_append_nonnil (a b : Str) (h : trimEnd b ≠ []) :
    trimEnd (a ++ b) = a ++ trimEnd b := by
  have hb : b.reverse.dropWhile isPySpace ≠ [] := by
    intro hcontra
    apply h
    unfold trimEnd
    rw [hcontra]
    rfl
  unfold trimEnd
  rw [List.reverse_append]
  rw [dropWhile_append_of_ne_nil isPySpace b.reverse a.reverse hb]
  rw [List.reverse_append, List.reverse_reverse]

theorem dropWhile_collapseWs (x : Str) :
    (collapseWs x).dropWhile isPySpace = collapseWs (x.dropWhile isPySpace) := by
  cases x with
  | nil => simp [collapseWs_nil]
  | cons c rest =>
    by_cases hc : isPySpace c = true
    · rw [collapseWs_cons_space c rest hc]
      rw [List.dropWhile_cons, if_pos (by decide)]
      rw [List.dropWhile_cons, if_pos hc]
      rcases dropWhile_head_not isPySpace rest with h0 | ⟨d, r, hdr, hd⟩
      · rw [h0, collapseWs_nil]
        simp
      · rw [hdr, collapseWs_cons_nonspace d r hd]
        rw [List.dropWhile_cons, if_neg (by simp [hd])]
    · have hc' : isPySpace c = false := by simpa using hc
      rw [collapseWs_cons_nonspace c rest hc']
      rw [List.dropWhile_cons, if_neg (by simp [hc'])]
      rw [List.dropWhile_cons, if_neg (by simp [hc'])]
      rw [collapseWs_cons_nonspace c rest hc']

theorem trimEnd_collapse_eq_join :
    ∀ (n : ℕ) (y : Str), y.length ≤ n →
      (y = [] ∨ ∃ c r, y = c :: r ∧ isPySpace c = false) →
      trimEnd (collapseWs y) = joinSpace (splitWs y) := by
  intro n
  induction n with
  | zero =>
    intro y hlen _
    have hy0 : y = [] := by
      cases y with
      | nil => rfl
      | cons c r => simp at hlen
    subst hy0
    rw [collapseWs_nil, (by rw [splitWs] : splitWs ([] : Str) = [])]
    rfl
  | succ m ihm =>
    intro y hlen hy
    rcases hy with rfl | ⟨c, r, rfl, hc⟩
    · rw [collapseWs_nil, (by rw [splitWs] : splitWs ([] : Str) = [])]
      rfl
    · have hsplit : splitWs (c :: r) =
          (c :: r.takeWhile (fun x => !isPySpace x)) ::
            splitWs (r.dropWhile (fun x => !isPySpace x)) := by
        rw [splitWs, if_neg (by simp [hc])]
      have htokchars : ∀ d ∈ (c :: r.takeWhile (fun x => !isPySpace x)),
          isPySpace d = false := by
        intro d hd
        rcases List.mem_cons.1 hd with rfl | hd
        · exact hc
        · simpa using (mem_takeWhile_and _ r d hd).1
      have hdecomp : c :: r = (c :: r.takeWhile (fun x => !isPySpace x)) ++
          r.dropWhile (fun x => !isPySpace x) := by
        conv_lhs => rw [← List.takeWhile_append_dropWhile (fun x => !isPySpace x) (c :: r)]
        rw [List.takeWhile_cons, if_pos (by simp [hc])]
        rw [List.dropWhile_cons, if_pos (by simp [hc])]
      have hcollapse : collapseWs (c :: r) =
          (c :: r.takeWhile (fun x => !isPySpace x)) ++
            collapseWs (r.dropWhile (fun x => !isPySpace x)) := by
        rw [hdecomp]
        exact collapseWs_token_append _ _ htokchars
      rcases dropWhile_head_not (fun x => !isPySpace x) r with h0 | ⟨s, r2, hsr, hs⟩
      · rw [hsplit, h0, hcollapse, h0]
        rw [collapseWs_nil, List.append_nil]
        rw [trimEnd_nospace _ htokchars]
        rw [(by rw [splitWs] : splitWs ([] : Str) = [])]
        rfl
      · have hs' : isPySpace s = true := by simpa using hs
        have hlen2 : (r2.dropWhile isPySpace).length ≤ m := by
          have h1 := dropWhile_length_le isPySpace r2
          have h2 : (r.dropWhile (fun x => !isPySpace x)).length ≤ r.length :=
            dropWhile_length_le _ r
          rw [hsr] at h2
          simp only [List.length_cons] at h2 hlen
          omega
        have hcz : collapseWs (s :: r2) =
            ' ' :: collapseWs (r2.dropWhile isPySpace) :=
          collapseWs_cons_space s r2 hs'
        have hsz : splitWs (s :: r2) = splitWs (r2.dropWhile isPySpace) := by
          rw [(by rw [splitWs, if_pos hs'] : splitWs (s :: r2) = splitWs r2)]
          exact (splitWs_dropWhile r2).symm
        have hIH := ihm (r2.dropWhile isPySpace) hlen2 (by
          rcases dropWhile_head_not isPySpace r2 with h1 | ⟨d, r3, hdr3, hd⟩
          · exact Or.inl h1
          · exact Or.inr ⟨d, r3, hdr3, hd⟩)
        rw [hsplit, hsr, hcollapse, hsr, hcz, hsz]
        rcases dropWhile_head_not isPySpace r2 with hz0 | ⟨d, r3, hdr3, hd⟩
        · rw [hz0, collapseWs_nil]
          rw [(by rw [splitWs] : splitWs ([] : Str) = [])]
          have hfin : trimEnd ((c :: r.takeWhile (fun x => !isPySpace x)) ++ [' ']) =
              c :: r.takeWhile (fun x => !isPySpace x) := by
            rw [trimEnd_append_space, trimEnd_nospace _ htokchars]
          exact hfin
        · have hzne : collapseWs (r2.dropWhile isPySpace) ≠ [] := by
            rw [hdr3, collapseWs_cons_nonspace d r3 hd]
            simp
          have hsne : splitWs (r2.dropWhile isPySpace) ≠ [] := by
            rw [hdr3, splitWs, if_neg (by simp [hd])]
            simp
          have hjne : joinSpace (splitWs (r2.dropWhile isPySpace)) ≠ [] := by
            rcases hu : splitWs (r2.dropWhile isPySpace) with _ | ⟨u, us⟩
            · exact absurd hu hsne
            · have hu1 := (mem_splitWs _ u (by rw [hu]; simp)).1
              exact joinSpace_ne_nil u us hu1
          have htne : trimEnd (collapseWs (r2.dropWhile isPySpace)) ≠ [] := by
            rw [hIH]
            exact hjne
          have hin : trimEnd ([' '] ++ collapseWs (r2.dropWhile isPySpace)) =
              [' '] ++ trimEnd (collapseWs (r2.dropWhile isPySpace)) :=
            trimEnd_append_nonnil _ _ htne
          have hin' : trimEnd ([' '] ++ collapseWs (r2.dropWhile isPySpace)) ≠ [] := by
            rw [hin]
            simp
          have hmain : trimEnd ((c :: r.takeWhile (fun x => !isPySpace x)) ++
              ' ' :: collapseWs (r2.dropWhile isPySpace)) =
              (c :: r.takeWhile (fun x => !isPySpace x)) ++
                ' ' :: trimEnd (collapseWs (r2.dropWhile isPySpace)) := by
            have h1 : trimEnd ((c :: r.takeWhile (fun x => !isPySpace x)) ++
                ([' '] ++ collapseWs (r2.dropWhile isPySpace))) =
                (c :: r.takeWhile (fun x => !isPySpace x)) ++
                  ([' '] ++ trimEnd (collapseWs (r2.dropWhile isPySpace))) := by
              rw [trimEnd_append_nonnil _ _ hin', hin]
            exact h1
          rw [hmain, hIH]
          rcases hu : splitWs (r2.dropWhile isPySpace) with _ | ⟨u, us⟩
          · exact absurd hu hsne
          · rfl

theorem join_split_eq_trim_collapse (x : Str) :
    joinSpace (splitWs x) = trimWs (collapseWs x) := by
  unfold trimWs
  rw [dropWhile_collapseWs x]
  rw [← splitWs_dropWhile x]
  exact (trimEnd_collapse_eq_join (x.dropWhile isPySpace).length
    (x.dropWhile isPySpace) le_rfl (by
      rcases dropWhile_head_not isPySpace x with h | ⟨c, r, hcr, hcf⟩
      · exact Or.inl h
      · exact Or.inr ⟨c, r, hcr, hcf⟩)).symm

/- ### Claim C5 -/

/-- Claim C5 counterexample: on `"a.pdfb"` the source removes the interior
`.pdf` occurrence, giving `"ab"`, while the claim's reference definition
(strip a trailing `.pdf` suffix only) gives `"a pdfb"`. -/
theorem normalize_differs_from_suffix_reference :
    normalize_text ['a', '.', 'p', 'd', 'f', 'b'] = ['a', 'b'] ∧
    refNormalize ['a', '.', 'p', 'd', 'f', 'b'] = ['a', ' ', 'p', 'd', 'f', 'b'] ∧
    normalize_text ['a', '.', 'p', 'd', 'f', 'b'] ≠
      refNormalize ['a', '.', 'p', 'd', 'f', 'b'] := by
  have h1 : normalize_text ['a', '.', 'p', 'd', 'f', 'b'] = ['a', 'b'] := by
    simp +decide [normalize_text, replaceAll, splitWs, joinSpace, subChar, pyLower]
  have h2 : refNormalize ['a', '.', 'p', 'd', 'f', 'b'] =
      ['a', ' ', 'p', 'd', 'f', 'b'] := by
    simp +decide [refNormalize, stripSuffixPdf, collapseWs, trimWs, trimEnd,
      subChar, pyLower]
  exact ⟨h1, h2, by rw [h1, h2]; decide⟩

/-- Claim C5 (amended): `normalize_text` equals the reference definition
in which every occurrence of the literal `.pdf` is removed (left to right,
non-overlapping) rather than only a trailing one; the remaining steps —
lower-casing, the `[a-z0-9\s]` character filter, whitespace collapsing and
trimming — are as the claim states them. -/
theorem normalize_equals_reference_amended (s : Str) :
    normalize_text s = refNormalizeAll s := by
  unfold normalize_text refNormalizeAll
  exact join_split_eq_trim_collapse _

/- ### Helper lemmas: the year-token scan -/

theorem yearHereB_eq_zero (prev : Option Char) (l : Str) :
    yearHereB prev l = boundTokAtP prev l 0 := by
  rcases l with _ | ⟨c1, _ | ⟨c2, _ | ⟨c3, _ | ⟨c4, rest⟩⟩⟩⟩ <;>
    cases prev <;>
      (try rcases rest with _ | ⟨r0, rs⟩) <;>
        simp [yearHereB, boundTokAtP, yearPatAt, wordAt, prevOK, Bool.and_assoc]

theorem boundTokAtP_succ (prev : Option Char) (c : Char) (rest : Str) (i : ℕ) :
    boundTokAtP prev (c :: rest) (i + 1) = boundTokAtP (some c) rest i := by
  cases i with
  | zero =>
    simp [boundTokAtP, wordAt, prevOK, List.drop_succ_cons]
  | succ j =>
    simp [boundTokAtP, wordAt, prevOK, List.drop_succ_cons]

theorem find?_congr (p q : ℕ → Bool) :
    ∀ (l : List ℕ), (∀ a ∈ l, p a = q a) → l.find? p = l.find? q := by
  intro l
  induction l with
  | nil => intro _; rfl
  | cons a l ih =>
    intro h
    by_cases hpa : p a = true
    · rw [List.find?_cons_of_pos _ hpa,
        List.find?_cons_of_pos _ (by rw [← h a (by simp)]; exact hpa)]
    · have hpa' : p a = false := by simpa using hpa
      rw [List.find?_cons_of_neg _ (by simp [hpa']),
        List.find?_cons_of_neg _ (by rw [← h a (by simp)]; simp [hpa'])]
      exact ih (fun b hb => h b (by simp [hb]))

theorem searchYearAux_eq :
    ∀ (l : Str) (prev : Option Char),
      searchYearAux prev l =
        ((List.range l.length).find? (boundTokAtP prev l)).map
          (fun i => (l.drop i).take 4) := by
  intro l
  induction l with
  | nil => intro prev; simp [searchYearAux, List.range_zero]
  | cons c rest ih =>
    intro prev
    rw [searchYearAux]
    rw [List.length_cons, List.range_succ_eq_map]
    by_cases hb : yearHereB prev (c :: rest) = true
    · rw [if_pos hb]
      have hb0 : boundTokAtP prev (c :: rest) 0 = true := by
        rw [← yearHereB_eq_zero]
        exact hb
      rw [List.find?_cons_of_pos _ hb0]
      simp
    · rw [if_neg hb]
      have hb0 : boundTokAtP prev (c :: rest) 0 = false := by
        rw [← yearHereB_eq_zero]
        simpa using hb
      rw [List.find?_cons_of_neg _ (by simp [hb0])]
      rw [List.find?_map]
      rw [find?_congr (boundTokAtP prev (c :: rest) ∘ Nat.succ)
        (boundTokAtP (some c) rest) (List.range rest.length)
        (fun i _ => boundTokAtP_succ prev c rest i)]
      rw [ih (some c)]
      cases hX : (List.range rest.length).find? (boundTokAtP (some c) rest) with
      | none => simp
      | some i => simp [List.drop_succ_cons]

/- ### Claim C6 -/

/-- Claim C6 counterexample: in `"x2019"` the substring `"2019"` (a
4-digit number beginning with 20, at offset 1) exists, yet `extract_year`
returns none — the regex `\b` word boundary rejects it because `x` is a
word character; so "none exactly when no such substring exists" is false. -/
theorem year_substring_missed :
    yearPatAt (List.drop 1 ("x2019".toList)) = true ∧
    extract_year ("x2019".toList) = none :=
  ⟨by decide, by decide⟩

/-- Claim C6 (amended): `extract_year` returns the first substring that is
a 4-digit number beginning with 19 or 20 and is delimited by word
boundaries (not immediately preceded or followed by a letter, digit or
underscore), and returns none exactly when no such delimited substring
exists — stated as equality with the index-scan reference definition
`specYearTok`. -/
theorem extract_year_eq_spec (l : Str) : extract_year l = specYearTok l := by
  unfold extract_year specYearTok
  rw [searchYearAux_eq l none]
  congr 1
  apply find?_congr
  intro i _
  cases i with
  | zero => simp [boundTokAtP, boundTokAt, prevOK]
  | succ j => simp [boundTokAtP, boundTokAt, prevOK]

/- ### Claims C7, C8 -/

/-- Claim C7: during result parsing, every line whose model response is
absent, blocked or malformed — any line whose outcome is not a result row
— produces a diagnostic and contributes no entry to the result table, and
the remaining lines are processed exactly as they would be without it: no
single bad line aborts the parsing of the others. -/
theorem bad_line_isolated (ip : Str → Option (Option Str × Option Str))
    (pre post : List EntryShape) (e : EntryShape)
    (h : isRowOut (processLine ip e) = false) :
    save_results_table ip (pre ++ e :: post) =
      save_results_table ip (pre ++ post) ∧
    lineDiags ip (pre ++ e :: post) =
      lineDiags ip pre ++ processLine ip e :: lineDiags ip post := by
  constructor
  · unfold save_results_table
    congr 1
    unfold parseLines
    cases hp : processLine ip e with
    | row r =>
      rw [hp] at h
      simp [isRowOut] at h
    | blockedDiag rs =>
      simp [List.filterMap_append, List.filterMap_cons, hp]
    | parseErr =>
      simp [List.filterMap_append, List.filterMap_cons, hp]
  · unfold lineDiags
    rw [List.map_append, List.map_cons, List.filter_append, List.filter_cons]
    simp [h]

/-- Claim C7 witness: a blocked middle line is reported as a diagnostic
and the table equals the table of the two good lines alone. -/
theorem bad_line_isolated_w :
    isRowOut (processLine (fun t => some (some t, none))
      (EntryShape.entry ("5::gamma".toList) RespShape.missing)) = false ∧
    save_results_table (fun t => some (some t, none))
      ([EntryShape.entry ("7::alpha".toList) (RespShape.text ("exp".toList))] ++
        EntryShape.entry ("5::gamma".toList) RespShape.missing ::
          [EntryShape.entry ("3::beta".toList) (RespShape.text ("qual".toList))]) =
      save_results_table (fun t => some (some t, none))
        ([EntryShape.entry ("7::alpha".toList) (RespShape.text ("exp".toList))] ++
          [EntryShape.entry ("3::beta".toList) (RespShape.text ("qual".toList))]) :=
  ⟨by decide,
    (bad_line_isolated (fun t => some (some t, none))
      [EntryShape.entry ("7::alpha".toList) (RespShape.text ("exp".toList))]
      [EntryShape.entry ("3::beta".toList) (RespShape.text ("qual".toList))]
      (EntryShape.entry ("5::gamma".toList) RespShape.missing) (by decide)).1⟩

/-- Claim C8: for every decoding of the backend's output lines and every
ordering of those lines, the final result table is sorted by the integer
row identifier in ascending order. -/
theorem results_table_sorted (ip : Str → Option (Option Str × Option Str))
    (lines : List EntryShape) :
    List.Sorted rowLe (save_results_table ip lines) :=
  List.sorted_insertionSort rowLe (parseLines ip lines)
